import Mathlib

/-!
Verification of the Canvas / History / Tab-projection engine of the web
design studio.  The definitions below are a shallow embedding of the
JavaScript classes CanvasManager (web_design_studio/js/modules/tab_manager.js),
HistoryManager and ExportManager (web_design_studio/js/modules/export_manager.js).

Modelling conventions:

* The DOM canvas is represented by the ordered list of its component
  wrappers (elements with class component-wrapper).  The placeholder
  header and the style elements appended by applyComponentCSS live outside
  the wrapper order and play no role in the properties below.
* All DOM roots (canvas and the three tab containers) are assumed present;
  every operation in the source is an early-return no-op otherwise.
* The text of the HTML and CSS tabs (textContent of their pre elements) is
  a string; the references tab is represented by the ordered list of its
  labelled reference entries, which is exactly the structure read and
  written by getTabStructure and setTabStructure.  The auxiliary
  tab3Content snapshot field is the text of the (always empty) placeholder
  paragraph and the timestamp field is used only for debug display and
  never restored, so both are omitted.
* Serialising a wrapper content container back to markup
  (contentContainer.innerHTML in rebuildTabs) is assumed to return the
  html string the component was created from.
* JavaScript string truthiness tests on css and reference values are
  modelled as inequality with the empty string, and the trim test on a
  pre element content as String.trim, which agrees with the JavaScript
  trim on the ASCII whitespace occurring here.
-/

namespace Studio

/-- A component payload as carried by a drag transfer and stored on a
wrapper: html, css, reference and title, read from a catalog record by the
drag start handler of ComponentManager. -/
structure ComponentData where
  html : String
  css : String
  reference : String
  title : String
deriving DecidableEq

/-- One labelled entry of the references tab: the h4 label (component
title) together with the reference body rendered below it.  updateTabs and
rebuildTabs create exactly one such entry per listed component. -/
structure RefEntry where
  title : String
  reference : String
deriving DecidableEq

/-- A history snapshot as built by HistoryManager.saveState: the canvas
content (the ordered wrapper list), the text of the HTML and CSS tabs and
the structure of the references tab. -/
structure Snapshot where
  canvasContent : List ComponentData
  tab1Content : String
  tab2Content : String
  tab3Structure : List RefEntry
deriving DecidableEq

/-- The live state: ordered wrapper list of the canvas, the three tab
views, and the two stacks of HistoryManager.  The head of each stack list
is the most recent entry: JavaScript arrays push and pop at the end and
evict with shift at the front, so the list order here is reversed. -/
structure SystemState where
  canvas : List ComponentData
  tab1 : String
  tab2 : String
  tab3 : List RefEntry
  history : List Snapshot
  redoStack : List Snapshot
deriving DecidableEq

/-- HistoryManager.maxHistorySize. -/
def maxHistorySize : Nat := 50

/-- The snapshot that saveState, undo and redo build from the live
state. -/
def currentSnapshot (s : SystemState) : Snapshot :=
  { canvasContent := s.canvas
    tab1Content := s.tab1
    tab2Content := s.tab2
    tab3Structure := s.tab3 }

/-- Push a snapshot and evict the oldest entry when the capacity is
exceeded (saveState: history.push, then history.shift once the length
exceeds maxHistorySize; with head = newest, eviction drops the last). -/
def pushBounded (l : List Snapshot) (x : Snapshot) : List Snapshot :=
  if (x :: l).length > maxHistorySize then (x :: l).dropLast else x :: l

/-- HistoryManager.saveState: push the current snapshot, clear the redo
stack, bound the history size. -/
def saveState (s : SystemState) : SystemState :=
  { s with history := pushBounded s.history (currentSnapshot s), redoStack := [] }

/-- Restore a snapshot into the live state: the canvas.innerHTML
assignment plus setTabContent on the three tabs and setTabStructure on the
references tab, leaving the stacks as given. -/
def restore (s : SystemState) (x : Snapshot) : SystemState :=
  { s with
    canvas := x.canvasContent
    tab1 := x.tab1Content
    tab2 := x.tab2Content
    tab3 := x.tab3Structure }

/-- HistoryManager.undo: no-op on an empty undo stack, otherwise push the
current snapshot on the redo stack, pop the most recent history entry and
restore it. -/
def undo (s : SystemState) : SystemState :=
  match s.history with
  | [] => s
  | last :: rest =>
      restore { s with redoStack := currentSnapshot s :: s.redoStack, history := rest } last

/-- HistoryManager.redo: no-op on an empty redo stack, otherwise push the
current snapshot on the undo stack, pop the most recent redo entry and
restore it. -/
def redo (s : SystemState) : SystemState :=
  match s.redoStack with
  | [] => s
  | next :: rest =>
      restore { s with history := currentSnapshot s :: s.history, redoStack := rest } next

/-- HistoryManager.clearHistory: empty both stacks. -/
def clearHistory (s : SystemState) : SystemState :=
  { s with history := [], redoStack := [] }

/-- Truthiness of a trimmed JavaScript string: the text contains at least
one non-whitespace character.  This is the test x.trim() performs when
used as a condition, stated as a direct character scan so that it
evaluates. -/
def hasContent (s : String) : Bool :=
  s.data.any (fun c => !c.isWhitespace)

/-- Append one block of code to a pre element the way updateTabs and
rebuildTabs both do: insert a blank separator when the existing text has
non-whitespace content, then append the block and a newline. -/
def appendBlock (cur block : String) : String :=
  (if hasContent cur then cur ++ "\n\n" else cur) ++ block ++ "\n"

/-- CanvasManager.updateTabs: incremental update of the three views after
a component was appended.  The html and css blocks are appended
unconditionally and one labelled reference entry is appended to the
references tab. -/
def updateTabs (s : SystemState) (d : ComponentData) : SystemState :=
  { s with
    tab1 := appendBlock s.tab1 d.html
    tab2 := appendBlock s.tab2 d.css
    tab3 := s.tab3 ++ [{ title := d.title, reference := d.reference }] }

/-- rebuildTabs, HTML tab: clear, then append every wrapper markup in
canvas order. -/
def rebuildTab1 (canvas : List ComponentData) : String :=
  canvas.foldl (fun acc d => appendBlock acc d.html) ""

/-- rebuildTabs, CSS tab: clear, then append the css of every wrapper in
canvas order, skipping wrappers whose stored css is empty. -/
def rebuildTab2 (canvas : List ComponentData) : String :=
  canvas.foldl (fun acc d => if d.css ≠ "" then appendBlock acc d.css else acc) ""

/-- rebuildTabs, references tab: clear, then append one labelled entry per
wrapper in canvas order, skipping wrappers whose stored reference is
empty. -/
def rebuildTab3 (canvas : List ComponentData) : List RefEntry :=
  canvas.foldl
    (fun acc d =>
      if d.reference ≠ "" then acc ++ [{ title := d.title, reference := d.reference }] else acc)
    []

/-- CanvasManager.rebuildTabs: full rebuild of the three views from the
current canvas order. -/
def rebuildTabsState (s : SystemState) : SystemState :=
  { s with
    tab1 := rebuildTab1 s.canvas
    tab2 := rebuildTab2 s.canvas
    tab3 := rebuildTab3 s.canvas }

/-- CanvasManager.addComponent: saveState, append the wrapper to the
canvas, then updateTabs.  The applyComponentCSS style element is not part
of the wrapper order and is not modelled. -/
def addComponent (s : SystemState) (d : ComponentData) : SystemState :=
  let s1 := saveState s
  updateTabs { s1 with canvas := s1.canvas ++ [d] } d

/-- CanvasManager.removeComponent on the wrapper at position i: saveState,
remove the wrapper, rebuildTabs.  A missing wrapper makes the whole call
an early-return no-op. -/
def removeComponent (s : SystemState) (i : Nat) : SystemState :=
  if i < s.canvas.length then
    let s1 := saveState s
    rebuildTabsState { s1 with canvas := s1.canvas.eraseIdx i }
  else s

/-- Net canvas reordering performed by the dragover handlers of one drag
gesture: the dragged wrapper at position i ends up at position j among the
remaining wrappers (insertBefore, or appendChild when j is past the
end). -/
def moveElem (l : List ComponentData) (i j : Nat) : List ComponentData :=
  match l.get? i with
  | none => l
  | some x =>
      let l1 := l.eraseIdx i
      l1.take j ++ x :: l1.drop j

/-- Reorder branch of CanvasManager.handleDrop.  The canvas order was
already changed by the dragover handlers during the gesture, so at drop
time the state carries the moved wrapper list; the handler then calls
saveState and rebuildTabs, in that order. -/
def commitReorder (s : SystemState) (moved : List ComponentData) : SystemState :=
  rebuildTabsState (saveState { s with canvas := moved })

/-- CanvasManager.clear: saveState, reset the canvas to the placeholder
header, clear the three tabs (clearTabs). -/
def clearCanvas (s : SystemState) : SystemState :=
  let s1 := saveState s
  { s1 with canvas := [], tab1 := "", tab2 := "", tab3 := [] }

/-- The mutating canvas operations; each begins by calling saveState. -/
inductive EditOp where
  | add (d : ComponentData)
  | remove (i : Nat)
  | reorder (i j : Nat)
  | clear
deriving DecidableEq

/-- Dispatch one mutating operation. -/
def applyEdit (s : SystemState) : EditOp → SystemState
  | .add d => addComponent s d
  | .remove i => removeComponent s i
  | .reorder i j => commitReorder s (moveElem s.canvas i j)
  | .clear => clearCanvas s

/-- Run a sequence of mutating operations. -/
def runEdits (s : SystemState) (ops : List EditOp) : SystemState :=
  ops.foldl applyEdit s

/-- Guard under which an operation actually runs its body: removeComponent
is an early-return no-op when the wrapper is absent, the other operations
always proceed. -/
def opTriggers (s : SystemState) : EditOp → Prop
  | .remove i => i < s.canvas.length
  | _ => True

/-- Boolean trace condition: every operation of the list actually runs its
body when executed in sequence from s. -/
def effectiveB (s : SystemState) : List EditOp → Bool
  | [] => true
  | op :: rest =>
      (match op with
       | .remove i => decide (i < s.canvas.length)
       | _ => true)
      && effectiveB (applyEdit s op) rest

/-- The snapshot that the saveState call inside an operation pushes.  For
a drag reorder the dragover handlers have already moved the canvas when
saveState runs at drop time, so the pushed snapshot carries the moved
canvas order together with the not yet rebuilt tab views. -/
def savedSnapshot (s : SystemState) : EditOp → Snapshot
  | .reorder i j => currentSnapshot { s with canvas := moveElem s.canvas i j }
  | _ => currentSnapshot s

/-- User actions on the engine: mutating operations, undo, redo, and the
explicit history clearing. -/
inductive Action where
  | edit (op : EditOp)
  | undoAct
  | redoAct
  | clearHist
deriving DecidableEq

/-- Dispatch one action. -/
def applyAction (s : SystemState) : Action → SystemState
  | .edit op => applyEdit s op
  | .undoAct => undo s
  | .redoAct => redo s
  | .clearHist => clearHistory s

/-- Run a sequence of actions. -/
def runActions (s : SystemState) (acts : List Action) : SystemState :=
  acts.foldl applyAction s

/-- Iterate undo. -/
def undoN : Nat → SystemState → SystemState
  | 0, s => s
  | n + 1, s => undoN n (undo s)

/-- The snapshots pushed while running a sequence of operations, most
recent first. -/
def snapTrace (s : SystemState) : List EditOp → List Snapshot
  | [] => []
  | op :: rest => snapTrace (applyEdit s op) rest ++ [savedSnapshot s op]

/-- Fresh page: empty canvas, blank tabs, empty stacks. -/
def initialState : SystemState :=
  { canvas := [], tab1 := "", tab2 := "", tab3 := [], history := [], redoStack := [] }

/-- The three live views agree with a full rebuild from the current canvas
order. -/
def Consistent (s : SystemState) : Prop :=
  s.tab1 = rebuildTab1 s.canvas ∧ s.tab2 = rebuildTab2 s.canvas ∧ s.tab3 = rebuildTab3 s.canvas

/-- A snapshot whose stored views agree with a full rebuild from its
stored canvas order. -/
def SnapConsistent (x : Snapshot) : Prop :=
  x.tab1Content = rebuildTab1 x.canvasContent ∧
    x.tab2Content = rebuildTab2 x.canvasContent ∧
      x.tab3Structure = rebuildTab3 x.canvasContent

/-- Component payloads that the rebuild does not silently drop. -/
def GoodData (d : ComponentData) : Prop :=
  d.css ≠ "" ∧ d.reference ≠ ""

/-- Live views and every stacked snapshot agree with a full rebuild. -/
def Inv (s : SystemState) : Prop :=
  Consistent s ∧ (∀ x ∈ s.history, SnapConsistent x) ∧ ∀ x ∈ s.redoStack, SnapConsistent x

/-- New-component branch of CanvasManager.handleDrop: the transfer payload
either parses to component data, or the failure (no data received, or
JSON.parse throwing) is caught and logged with no further effect.  none
models a missing or unparseable payload. -/
def handleDropNew (s : SystemState) (payload : Option ComponentData) : SystemState :=
  match payload with
  | none => s
  | some d => addComponent s d

/-- A wrapper bounding box as used by getDragAfterElement: top coordinate
and height of getBoundingClientRect. -/
structure Rect where
  top : ℚ
  height : ℚ
deriving DecidableEq

/-- The offset computed per candidate: pointer y minus the vertical
midpoint of the box. -/
def dragOffset (y : ℚ) (r : Rect) : ℚ :=
  y - r.top - r.height / 2

/-- One step of the reduce inside getDragAfterElement: adopt the candidate
when its offset is negative and larger than the best offset so far (the
initial best is negative infinity, so with no candidate adopted yet the
test is just negativity). -/
def betterCandidate (y : ℚ) (acc : Option (Nat × ℚ)) (idx : Nat) (r : Rect) : Option (Nat × ℚ) :=
  match acc with
  | none => if dragOffset y r < 0 then some (idx, dragOffset y r) else none
  | some (i, best) =>
      if dragOffset y r < 0 ∧ best < dragOffset y r then some (idx, dragOffset y r)
      else some (i, best)

/-- The reduce of getDragAfterElement over the non-dragged wrappers, idx
tracking the position of each candidate. -/
def dragReduce (y : ℚ) : Nat → Option (Nat × ℚ) → List Rect → Option (Nat × ℚ)
  | _, acc, [] => acc
  | idx, acc, r :: rest => dragReduce y (idx + 1) (betterCandidate y acc idx r) rest

/-- CanvasManager.getDragAfterElement: position of the wrapper the dragged
element must be inserted before, or none when it goes to the end. -/
def getDragAfterElement (y : ℚ) (rects : List Rect) : Option Nat :=
  (dragReduce y 0 none rects).map Prod.fst

/-- Reorder branch of CanvasManager.handleDragOver: others is the canvas
wrapper list without the dragged element and rects their bounding boxes;
the dragged element is inserted before the returned wrapper, or appended
at the end when there is none. -/
def dragOverPlace (dragged : ComponentData) (others : List ComponentData) (y : ℚ)
    (rects : List Rect) : List ComponentData :=
  match getDragAfterElement y rects with
  | none => others ++ [dragged]
  | some i => others.take i ++ dragged :: others.drop i

/-- The resources collected by ExportManager.generateExportData: the
canvas markup without header and style elements, the concatenated
component css, and the script text. -/
structure ExportData where
  content : String
  css : String
  js : String
deriving DecidableEq

/-- Outcome of ExportManager.exportDesign: either the nothing-to-export
notice, or a bundle built from the export data. -/
inductive ExportResult where
  | nothingToExport
  | bundle (data : ExportData)
deriving DecidableEq

/-- Decision logic of ExportManager.exportDesign: with no component
wrapper on the canvas, or with generated content that trims to nothing,
show the nothing-to-export notice and stop; otherwise produce the bundle.
The source mutates no canvas, tab or history state on any path of this
function. -/
def exportDesign (componentCount : Nat) (ed : ExportData) : ExportResult :=
  if componentCount = 0 then .nothingToExport
  else if hasContent ed.content = false then .nothingToExport
  else .bundle ed

/-- Concrete component A used in witnesses and evaluations. -/
def dA : ComponentData :=
  { html := "<p>A</p>", css := ".a\x7bcolor:red\x7d", reference := "https://a.example", title := "A" }

/-- Concrete component B used in witnesses and evaluations. -/
def dB : ComponentData :=
  { html := "<p>B</p>", css := ".b\x7bcolor:blue\x7d", reference := "https://b.example", title := "B" }

/-- Concrete component with empty css, exercising the asymmetry between
updateTabs and rebuildTabs. -/
def dNoCss : ComponentData :=
  { html := "<p>A</p>", css := "", reference := "ref", title := "NoCss" }

/-- Canvas holding A then B, as produced by two drops. -/
def sAB : SystemState :=
  addComponent (addComponent initialState dA) dB

/-- Component A of the spec scenario for the HTML view. -/
def c7A : ComponentData :=
  { html := "<p>A</p>", css := ".a\x7bcolor:red\x7d", reference := "", title := "A" }

/-- Component B of the spec scenario for the HTML view. -/
def c7B : ComponentData :=
  { html := "<p>B</p>", css := "", reference := "", title := "B" }

/-- Unfolding undo on an empty undo stack. -/
theorem undo_eq_of_nil (s : SystemState) (h : s.history = []) : undo s = s := by
  unfold undo
  rw [h]

/-- Unfolding undo on a non-empty undo stack. -/
theorem undo_eq_of_cons (s : SystemState) (x : Snapshot) (t : List Snapshot)
    (h : s.history = x :: t) :
    undo s = restore { s with redoStack := currentSnapshot s :: s.redoStack, history := t } x := by
  unfold undo
  rw [h]

/-- Unfolding redo on an empty redo stack. -/
theorem redo_eq_of_nil (s : SystemState) (h : s.redoStack = []) : redo s = s := by
  unfold redo
  rw [h]

/-- C1: undo followed by redo restores the full state, whenever the undo
stack is non-empty.  This is in fact an equality of the complete state,
stacks included, so in particular the canvas content, the three tab views
and their order are exactly those that existed immediately before the
undo. -/
theorem c1_undo_redo_inverse (s : SystemState) (h : s.history ≠ []) :
    redo (undo s) = s := by
  obtain ⟨c, t1, t2, t3, hist, rstk⟩ := s
  cases hist with
  | nil => exact absurd rfl h
  | cons x rest => rfl

/-- Witness for C1 at a concrete reachable state with a non-empty undo
stack. -/
theorem c1_witness :
    redo (undo (addComponent initialState dA)) = addComponent initialState dA :=
  c1_undo_redo_inverse (addComponent initialState dA) (by decide)

/-- C2, evaluation at the failing input: the canvas holds A then B, one
drag gesture moves B before A and the drop commits it.  Exactly one
snapshot is pushed for the whole gesture, but it carries the already
reordered canvas, so the undo performed right after the commit leaves the
order at B, A instead of restoring the pre-gesture order A, B. -/
theorem c2_reorder_snapshot_eval :
    (applyEdit sAB (EditOp.reorder 1 0)).history.length = sAB.history.length + 1 ∧
      (undo (applyEdit sAB (EditOp.reorder 1 0))).canvas = [dB, dA] ∧
        (undo (applyEdit sAB (EditOp.reorder 1 0))).canvas ≠ [dA, dB] := by
  decide

/-- C4: every mutating operation that runs its body calls saveState, which
empties the redo stack; a subsequent redo is then the identity on the
whole state. -/
theorem c4_redo_invalidation (s : SystemState) (op : EditOp) (h : opTriggers s op) :
    (applyEdit s op).redoStack = [] ∧ redo (applyEdit s op) = applyEdit s op := by
  have hr : (applyEdit s op).redoStack = [] := by
    cases op with
    | add d => rfl
    | remove i =>
        show (removeComponent s i).redoStack = []
        rw [removeComponent, if_pos (show i < s.canvas.length from h)]
        rfl
    | reorder i j => rfl
    | clear => rfl
  exact ⟨hr, redo_eq_of_nil _ hr⟩

/-- Witness for C4 at a concrete mutating operation. -/
theorem c4_witness :
    (applyEdit initialState (EditOp.add dA)).redoStack = [] ∧
      redo (applyEdit initialState (EditOp.add dA)) = applyEdit initialState (EditOp.add dA) :=
  c4_redo_invalidation initialState (EditOp.add dA) True.intro

/-- C7, counterexample to the claimed view text: after adding A then B the
HTML view is not the claimed string with a single blank line between the
two fragments. -/
theorem c7_counterexample :
    (addComponent (addComponent initialState c7A) c7B).tab1 ≠ "<p>A</p>\n\n<p>B</p>\n" := by
  decide

/-- C7, amended: updateTabs appends the separator after the trailing
newline of the previous block, so adding A then B yields the html of each
instance followed by a newline, with a double newline inserted before each
later instance: three consecutive newlines separate the fragments. -/
theorem c7_html_view :
    (addComponent (addComponent initialState c7A) c7B).tab1 = "<p>A</p>\n\n\n<p>B</p>\n" := by
  decide

/-- C8: a drop whose transfer payload is missing or fails JSON parsing is
caught and logged only; the canvas, the three views and both stacks are
all left exactly as they were, and no snapshot is taken. -/
theorem c8_malformed_drop (s : SystemState) : handleDropNew s none = s := rfl

/-- C9: with zero component wrappers on the canvas, exportDesign reports
the nothing-to-export notice and produces no bundle; the source mutates no
state on this path. -/
theorem c9_empty_export (s : SystemState) (ed : ExportData) (h : s.canvas = []) :
    exportDesign s.canvas.length ed = ExportResult.nothingToExport := by
  rw [h]
  rfl

/-- Witness for C9 on the initial empty canvas. -/
theorem c9_witness :
    exportDesign initialState.canvas.length { content := "x", css := "", js := "" } =
      ExportResult.nothingToExport :=
  c9_empty_export initialState { content := "x", css := "", js := "" } rfl

/-- C10: even with component wrappers present, generated export content
that trims to nothing yields the same nothing-to-export notice and no
bundle. -/
theorem c10_blank_content_export (n : Nat) (ed : ExportData) (h1 : n ≠ 0)
    (h2 : hasContent ed.content = false) :
    exportDesign n ed = ExportResult.nothingToExport := by
  unfold exportDesign
  rw [if_neg h1, if_pos h2]

/-- Witness for C10 with one component and whitespace-only content. -/
theorem c10_witness :
    exportDesign 1 { content := " ", css := "c", js := "" } = ExportResult.nothingToExport :=
  c10_blank_content_export 1 { content := " ", css := "c", js := "" } (by decide) (by decide)

/-- C3, counterexample to the claimed equality with a full rebuild: adding
a component with empty css leaves a stray newline in the CSS view that a
full rebuild from the canvas does not produce. -/
theorem c3_counterexample :
    (addComponent initialState dNoCss).tab2 ≠ rebuildTab2 (addComponent initialState dNoCss).canvas := by
  decide

/-- Unfolding redo on a non-empty redo stack. -/
theorem redo_eq_of_cons (s : SystemState) (x : Snapshot) (t : List Snapshot)
    (h : s.redoStack = x :: t) :
    redo s = restore { s with history := currentSnapshot s :: s.history, redoStack := t } x := by
  unfold redo
  rw [h]

/-- Extending the rebuilt HTML view by one component is one more step of
the rebuild fold. -/
theorem rebuildTab1_append (c : List ComponentData) (d : ComponentData) :
    rebuildTab1 (c ++ [d]) = appendBlock (rebuildTab1 c) d.html := by
  unfold rebuildTab1
  rw [List.foldl_append]
  rfl

/-- Extending the rebuilt CSS view by one component is one more
(conditional) step of the rebuild fold. -/
theorem rebuildTab2_append (c : List ComponentData) (d : ComponentData) :
    rebuildTab2 (c ++ [d]) =
      if d.css ≠ "" then appendBlock (rebuildTab2 c) d.css else rebuildTab2 c := by
  unfold rebuildTab2
  rw [List.foldl_append]
  rfl

/-- Extending the rebuilt references view by one component is one more
(conditional) step of the rebuild fold. -/
theorem rebuildTab3_append (c : List ComponentData) (d : ComponentData) :
    rebuildTab3 (c ++ [d]) =
      if d.reference ≠ "" then rebuildTab3 c ++ [{ title := d.title, reference := d.reference }]
      else rebuildTab3 c := by
  unfold rebuildTab3
  rw [List.foldl_append]
  rfl

/-- A state produced by rebuildTabs always has views agreeing with the
rebuild of its canvas. -/
theorem consistent_rebuild (s : SystemState) : Consistent (rebuildTabsState s) :=
  ⟨rfl, rfl, rfl⟩

/-- Entries of the bounded push are the pushed snapshot or old entries. -/
theorem mem_pushBounded (l : List Snapshot) (x y : Snapshot) (h : y ∈ pushBounded l x) :
    y = x ∨ y ∈ l := by
  unfold pushBounded at h
  by_cases hc : (x :: l).length > maxHistorySize
  · rw [if_pos hc] at h
    exact List.mem_cons.mp ((List.dropLast_sublist (x :: l)).subset h)
  · rw [if_neg hc] at h
    exact List.mem_cons.mp h

/-- One mutating operation keeps the live views equal to the rebuild,
provided an added component carries non-empty css and reference. -/
theorem consistent_applyEdit (s : SystemState) (op : EditOp) (hc : Consistent s)
    (hop : ∀ d, op = EditOp.add d → GoodData d) : Consistent (applyEdit s op) := by
  cases op with
  | add d =>
      obtain ⟨hcss, href⟩ := hop d rfl
      obtain ⟨h1, h2, h3⟩ := hc
      refine ⟨?_, ?_, ?_⟩
      · show appendBlock s.tab1 d.html = rebuildTab1 (s.canvas ++ [d])
        rw [rebuildTab1_append, h1]
      · show appendBlock s.tab2 d.css = rebuildTab2 (s.canvas ++ [d])
        rw [rebuildTab2_append, h2, if_pos hcss]
      · show s.tab3 ++ [{ title := d.title, reference := d.reference }] =
          rebuildTab3 (s.canvas ++ [d])
        rw [rebuildTab3_append, h3, if_pos href]
  | remove i =>
      by_cases hi : i < s.canvas.length
      · show Consistent (removeComponent s i)
        rw [removeComponent, if_pos hi]
        exact consistent_rebuild _
      · show Consistent (removeComponent s i)
        rw [removeComponent, if_neg hi]
        exact hc
  | reorder i j => exact consistent_rebuild _
  | clear => exact ⟨rfl, rfl, rfl⟩

/-- Running a sequence of mutating operations from a consistent state
keeps the views equal to the rebuild, provided every added component
carries non-empty css and reference. -/
theorem consistent_runEdits (ops : List EditOp) :
    ∀ s, Consistent s → (∀ d, EditOp.add d ∈ ops → GoodData d) →
      Consistent (runEdits s ops) := by
  induction ops with
  | nil => intro s hc _; exact hc
  | cons op rest ih =>
      intro s hc hgood
      have h1 : Consistent (applyEdit s op) :=
        consistent_applyEdit s op hc
          (fun d hd => hgood d (by rw [hd]; exact List.mem_cons_self _ _))
      exact ih (applyEdit s op) h1 (fun d hd => hgood d (List.mem_cons_of_mem _ hd))

/-- One action preserves consistency of the live views and of every
stacked snapshot, provided the action is not a drag reorder commit and
every added component carries non-empty css and reference. -/
theorem inv_applyAction (s : SystemState) (a : Action) (hInv : Inv s)
    (hgood : ∀ d, a = Action.edit (EditOp.add d) → GoodData d)
    (hnor : ∀ i j, a ≠ Action.edit (EditOp.reorder i j)) :
    Inv (applyAction s a) := by
  obtain ⟨hc, hh, hr⟩ := hInv
  cases a with
  | edit op =>
      cases op with
      | add d =>
          have hcons : Consistent (applyEdit s (EditOp.add d)) :=
            consistent_applyEdit s (EditOp.add d) hc (fun d2 hd => hgood d2 (by rw [hd]))
          refine ⟨hcons, ?_, ?_⟩
          · intro x hx
            have hx2 : x ∈ pushBounded s.history (currentSnapshot s) := hx
            rcases mem_pushBounded s.history (currentSnapshot s) x hx2 with rfl | hmem
            · exact hc
            · exact hh x hmem
          · intro x hx
            have hx2 : x ∈ ([] : List Snapshot) := hx
            cases hx2
      | remove i =>
          by_cases hi : i < s.canvas.length
          · have he : applyEdit s (EditOp.remove i) =
                rebuildTabsState
                  { saveState s with canvas := (saveState s).canvas.eraseIdx i } := by
              show removeComponent s i = _
              rw [removeComponent, if_pos hi]
            rw [show applyAction s (Action.edit (EditOp.remove i)) =
              applyEdit s (EditOp.remove i) from rfl, he]
            refine ⟨consistent_rebuild _, ?_, ?_⟩
            · intro x hx
              have hx2 : x ∈ pushBounded s.history (currentSnapshot s) := hx
              rcases mem_pushBounded s.history (currentSnapshot s) x hx2 with rfl | hmem
              · exact hc
              · exact hh x hmem
            · intro x hx
              have hx2 : x ∈ ([] : List Snapshot) := hx
              cases hx2
          · have he : applyEdit s (EditOp.remove i) = s := by
              show removeComponent s i = _
              rw [removeComponent, if_neg hi]
            rw [show applyAction s (Action.edit (EditOp.remove i)) =
              applyEdit s (EditOp.remove i) from rfl, he]
            exact ⟨hc, hh, hr⟩
      | reorder i j => exact absurd rfl (hnor i j)
      | clear =>
          refine ⟨⟨rfl, rfl, rfl⟩, ?_, ?_⟩
          · intro x hx
            have hx2 : x ∈ pushBounded s.history (currentSnapshot s) := hx
            rcases mem_pushBounded s.history (currentSnapshot s) x hx2 with rfl | hmem
            · exact hc
            · exact hh x hmem
          · intro x hx
            have hx2 : x ∈ ([] : List Snapshot) := hx
            cases hx2
  | undoAct =>
      cases hhist : s.history with
      | nil =>
          show Inv (undo s)
          rw [undo_eq_of_nil s hhist]
          exact ⟨hc, hh, hr⟩
      | cons x t =>
          have hx := hh x (by rw [hhist]; exact List.mem_cons_self x t)
          show Inv (undo s)
          rw [undo_eq_of_cons s x t hhist]
          refine ⟨hx, ?_, ?_⟩
          · intro z hz
            exact hh z (by rw [hhist]; exact List.mem_cons_of_mem x hz)
          · intro z hz
            rcases List.mem_cons.mp hz with rfl | hmem
            · exact hc
            · exact hr z hmem
  | redoAct =>
      cases hrs : s.redoStack with
      | nil =>
          show Inv (redo s)
          rw [redo_eq_of_nil s hrs]
          exact ⟨hc, hh, hr⟩
      | cons x t =>
          have hx := hr x (by rw [hrs]; exact List.mem_cons_self x t)
          show Inv (redo s)
          rw [redo_eq_of_cons s x t hrs]
          refine ⟨hx, ?_, ?_⟩
          · intro z hz
            rcases List.mem_cons.mp hz with rfl | hmem
            · exact hc
            · exact hh z hmem
          · intro z hz
            exact hr z (by rw [hrs]; exact List.mem_cons_of_mem x hz)
  | clearHist =>
      refine ⟨hc, ?_, ?_⟩
      · intro z hz
        have hz2 : z ∈ ([] : List Snapshot) := hz
        cases hz2
      · intro z hz
        have hz2 : z ∈ ([] : List Snapshot) := hz
        cases hz2

/-- Running a sequence of actions without drag reorder commits, from a
state satisfying the full invariant, preserves it. -/
theorem inv_runActions (acts : List Action) :
    ∀ s, Inv s → (∀ d, Action.edit (EditOp.add d) ∈ acts → GoodData d) →
      (∀ i j, Action.edit (EditOp.reorder i j) ∉ acts) → Inv (runActions s acts) := by
  induction acts with
  | nil => intro s h _ _; exact h
  | cons a rest ih =>
      intro s h hgood hnor
      have h1 : Inv (applyAction s a) :=
        inv_applyAction s a h
          (fun d hd => hgood d (by rw [hd]; exact List.mem_cons_self _ _))
          (fun i j hij => hnor i j (by rw [← hij]; exact List.mem_cons_self _ _))
      exact ih (applyAction s a) h1
        (fun d hd => hgood d (List.mem_cons_of_mem _ hd))
        (fun i j hij => hnor i j (List.mem_cons_of_mem _ hij))

/-- C3, amended: after every structural change of a run of add, remove,
reorder-commit and clear operations from the empty canvas, each of the
three tab views equals the full rebuild from the current ordered
component sequence, and the same holds for runs that additionally use
undo and redo but contain no reorder commit — provided every added
component carries non-empty css and reference.  Quantification over all
such runs gives the equality at every intermediate point.  (Components
with empty css or reference are listed by the incremental add path but
skipped by the rebuild, and the reorder-commit snapshot pairs the
post-reorder canvas with pre-gesture views, which breaks the equality
after a later undo; see the counterexample and the reorder evaluation.) -/
theorem c3_tab_views_rebuild (ops : List EditOp)
    (hops : ∀ d, EditOp.add d ∈ ops → GoodData d)
    (acts : List Action)
    (hacts : ∀ d, Action.edit (EditOp.add d) ∈ acts → GoodData d)
    (hnor : ∀ i j, Action.edit (EditOp.reorder i j) ∉ acts) :
    Consistent (runEdits initialState ops) ∧ Consistent (runActions initialState acts) := by
  constructor
  · exact consistent_runEdits ops initialState ⟨rfl, rfl, rfl⟩ hops
  · exact (inv_runActions acts initialState
      ⟨⟨rfl, rfl, rfl⟩, fun x hx => absurd hx (List.not_mem_nil x),
        fun x hx => absurd hx (List.not_mem_nil x)⟩ hacts hnor).1

/-- Witness for C3 on a concrete run with adds, a reorder commit and a
removal, and a concrete action run with undo and redo. -/
theorem c3_witness :
    Consistent (runEdits initialState
        [EditOp.add dA, EditOp.add dB, EditOp.reorder 1 0, EditOp.remove 0]) ∧
      Consistent (runActions initialState
        [Action.edit (EditOp.add dA), Action.undoAct, Action.redoAct]) :=
  c3_tab_views_rebuild
    [EditOp.add dA, EditOp.add dB, EditOp.reorder 1 0, EditOp.remove 0]
    (by
      intro d hd
      simp at hd
      rcases hd with rfl | rfl
      · exact ⟨by decide, by decide⟩
      · exact ⟨by decide, by decide⟩)
    [Action.edit (EditOp.add dA), Action.undoAct, Action.redoAct]
    (by
      intro d hd
      simp at hd
      rcases hd with rfl
      exact ⟨by decide, by decide⟩)
    (by intro i j; simp)

/-- With the history within capacity, the bounded push is a capped cons. -/
theorem pushBounded_eq_take (l : List Snapshot) (x : Snapshot) (h : l.length ≤ maxHistorySize) :
    pushBounded l x = (x :: l).take maxHistorySize := by
  unfold pushBounded
  by_cases hc : (x :: l).length > maxHistorySize
  · rw [if_pos hc, List.dropLast_eq_take]
    congr 1
    simp only [List.length_cons] at hc ⊢
    omega
  · rw [if_neg hc]
    rw [List.take_of_length_le (not_lt.mp hc)]

/-- The bounded push keeps the history within capacity. -/
theorem pushBounded_length_le (l : List Snapshot) (x : Snapshot) (h : l.length ≤ maxHistorySize) :
    (pushBounded l x).length ≤ maxHistorySize := by
  rw [pushBounded_eq_take l x h, List.length_take]
  exact Nat.min_le_left _ _

/-- Every mutating operation that runs its body leaves the history equal
to the bounded push of the snapshot it saved. -/
theorem applyEdit_history (s : SystemState) (op : EditOp) (h : opTriggers s op) :
    (applyEdit s op).history = pushBounded s.history (savedSnapshot s op) := by
  cases op with
  | add d => rfl
  | remove i =>
      show (removeComponent s i).history = _
      rw [removeComponent, if_pos (show i < s.canvas.length from h)]
      rfl
  | reorder i j => rfl
  | clear => rfl

/-- Splitting the effectiveness of a run at its first operation. -/
theorem effectiveB_cons (s : SystemState) (op : EditOp) (rest : List EditOp)
    (h : effectiveB s (op :: rest) = true) :
    opTriggers s op ∧ effectiveB (applyEdit s op) rest = true := by
  unfold effectiveB at h
  rw [Bool.and_eq_true] at h
  refine ⟨?_, h.2⟩
  cases op with
  | add d => exact True.intro
  | remove i => exact show i < s.canvas.length from of_decide_eq_true h.1
  | reorder i j => exact True.intro
  | clear => exact True.intro

/-- Capping a list then capping the concatenation is capping once. -/
theorem take_append_take (A B : List Snapshot) (n : Nat) :
    (A ++ B.take n).take n = (A ++ B).take n := by
  rw [List.take_append_eq_append_take, List.take_append_eq_append_take, List.take_take,
    Nat.min_eq_left (Nat.sub_le n A.length)]

/-- A trace of pushed snapshots has one entry per operation. -/
theorem snapTrace_length (ops : List EditOp) : ∀ s, (snapTrace s ops).length = ops.length := by
  induction ops with
  | nil => intro s; rfl
  | cons op rest ih =>
      intro s
      show (snapTrace (applyEdit s op) rest ++ [savedSnapshot s op]).length = rest.length + 1
      rw [List.length_append, ih]
      rfl

/-- After an effective run the history is the capped trace of pushed
snapshots on top of the starting history. -/
theorem runEdits_history (ops : List EditOp) :
    ∀ s, effectiveB s ops = true → s.history.length ≤ maxHistorySize →
      (runEdits s ops).history = (snapTrace s ops ++ s.history).take maxHistorySize := by
  induction ops with
  | nil =>
      intro s _ hlen
      show s.history = (([] : List Snapshot) ++ s.history).take maxHistorySize
      rw [List.nil_append, List.take_of_length_le hlen]
  | cons op rest ih =>
      intro s heff hlen
      obtain ⟨htrig, heff2⟩ := effectiveB_cons s op rest heff
      have hhist := applyEdit_history s op htrig
      have hlen2 : (applyEdit s op).history.length ≤ maxHistorySize := by
        rw [hhist]
        exact pushBounded_length_le _ _ hlen
      have hmain := ih (applyEdit s op) heff2 hlen2
      show (runEdits (applyEdit s op) rest).history =
        (snapTrace s (op :: rest) ++ s.history).take maxHistorySize
      rw [hmain, hhist, pushBounded_eq_take _ _ hlen, take_append_take]
      simp only [snapTrace]
      rw [List.append_assoc]
      rfl

/-- Iterated undo on an empty undo stack never moves. -/
theorem undoN_of_nil_history (n : Nat) : ∀ s : SystemState, s.history = [] → undoN n s = s := by
  induction n with
  | zero => intro s _; rfl
  | succ m ih =>
      intro s h
      show undoN m (undo s) = s
      rw [undo_eq_of_nil s h]
      exact ih s h

/-- Undoing at least depth-many times restores the oldest history entry
and ends with an empty undo stack. -/
theorem undoN_restores_last (A : List Snapshot) :
    ∀ (x : Snapshot) (s : SystemState) (n : Nat), s.history = A ++ [x] → A.length + 1 ≤ n →
      currentSnapshot (undoN n s) = x ∧ (undoN n s).history = [] := by
  induction A with
  | nil =>
      intro x s n hh hn
      cases n with
      | zero => exact absurd hn (by omega)
      | succ m =>
          have h1 : undo s =
              restore { s with redoStack := currentSnapshot s :: s.redoStack, history := [] } x :=
            undo_eq_of_cons s x [] hh
          have h2 : undoN m (undo s) = undo s := by
            apply undoN_of_nil_history
            rw [h1]
            rfl
          show currentSnapshot (undoN m (undo s)) = x ∧ (undoN m (undo s)).history = []
          rw [h2, h1]
          exact ⟨rfl, rfl⟩
  | cons a A2 ih =>
      intro x s n hh hn
      cases n with
      | zero => exact absurd hn (by omega)
      | succ m =>
          have h1 : undo s =
              restore
                { s with
                  redoStack := currentSnapshot s :: s.redoStack
                  history := A2 ++ [x] }
                a :=
            undo_eq_of_cons s a (A2 ++ [x]) hh
          show currentSnapshot (undoN m (undo s)) = x ∧ (undoN m (undo s)).history = []
          rw [h1]
          exact ih x _ m rfl (by simp only [List.length_cons] at hn; omega)

/-- Reordering an empty canvas is the identity. -/
theorem moveElem_nil (i j : Nat) : moveElem [] i j = [] := rfl

/-- Reordering a one-element canvas is the identity. -/
theorem moveElem_singleton (d : ComponentData) (i j : Nat) : moveElem [d] i j = [d] := by
  cases i with
  | zero =>
      show ([] : List ComponentData).take j ++ d :: ([] : List ComponentData).drop j = [d]
      rw [List.take_nil, List.drop_nil]
      rfl
  | succ m => rfl

/-- On a canvas of at most one wrapper every operation saves the plain
current snapshot: the drag reorder cannot change the order there. -/
theorem savedSnapshot_of_short (s : SystemState) (op : EditOp) (h : s.canvas.length ≤ 1) :
    savedSnapshot s op = currentSnapshot s := by
  cases op with
  | add d => rfl
  | remove i => rfl
  | clear => rfl
  | reorder i j =>
      show currentSnapshot { s with canvas := moveElem s.canvas i j } = currentSnapshot s
      have hm : moveElem s.canvas i j = s.canvas := by
        cases hc : s.canvas with
        | nil => rw [moveElem_nil]
        | cons d t =>
            cases t with
            | nil => rw [moveElem_singleton]
            | cons e t2 =>
                rw [hc] at h
                simp only [List.length_cons] at h
                omega
      rw [hm]

/-- One action keeps the total stacked snapshot count within capacity. -/
theorem applyAction_size (s : SystemState) (a : Action)
    (h : s.history.length + s.redoStack.length ≤ maxHistorySize) :
    (applyAction s a).history.length + (applyAction s a).redoStack.length ≤ maxHistorySize := by
  cases a with
  | edit op =>
      cases op with
      | add d =>
          have hb := pushBounded_length_le s.history (currentSnapshot s) (by omega)
          show (pushBounded s.history (currentSnapshot s)).length + 0 ≤ maxHistorySize
          omega
      | remove i =>
          by_cases hi : i < s.canvas.length
          · have he : applyEdit s (EditOp.remove i) =
                rebuildTabsState
                  { saveState s with canvas := (saveState s).canvas.eraseIdx i } := by
              show removeComponent s i = _
              rw [removeComponent, if_pos hi]
            rw [show applyAction s (Action.edit (EditOp.remove i)) =
              applyEdit s (EditOp.remove i) from rfl, he]
            have hb := pushBounded_length_le s.history (currentSnapshot s) (by omega)
            show (pushBounded s.history (currentSnapshot s)).length + 0 ≤ maxHistorySize
            omega
          · have he : applyEdit s (EditOp.remove i) = s := by
              show removeComponent s i = _
              rw [removeComponent, if_neg hi]
            rw [show applyAction s (Action.edit (EditOp.remove i)) =
              applyEdit s (EditOp.remove i) from rfl, he]
            exact h
      | reorder i j =>
          have hb := pushBounded_length_le s.history (savedSnapshot s (EditOp.reorder i j))
            (by omega)
          show (pushBounded s.history (savedSnapshot s (EditOp.reorder i j))).length + 0 ≤
            maxHistorySize
          omega
      | clear =>
          have hb := pushBounded_length_le s.history (currentSnapshot s) (by omega)
          show (pushBounded s.history (currentSnapshot s)).length + 0 ≤ maxHistorySize
          omega
  | undoAct =>
      cases hh : s.history with
      | nil =>
          rw [show applyAction s Action.undoAct = undo s from rfl, undo_eq_of_nil s hh]
          exact h
      | cons x t =>
          rw [show applyAction s Action.undoAct = undo s from rfl, undo_eq_of_cons s x t hh]
          show t.length + (currentSnapshot s :: s.redoStack).length ≤ maxHistorySize
          rw [hh] at h
          simp only [List.length_cons] at h ⊢
          omega
  | redoAct =>
      cases hr : s.redoStack with
      | nil =>
          rw [show applyAction s Action.redoAct = redo s from rfl, redo_eq_of_nil s hr]
          exact h
      | cons x t =>
          rw [show applyAction s Action.redoAct = redo s from rfl, redo_eq_of_cons s x t hr]
          show (currentSnapshot s :: s.history).length + t.length ≤ maxHistorySize
          rw [hr] at h
          simp only [List.length_cons] at h ⊢
          omega
  | clearHist =>
      show (0 : Nat) + 0 ≤ maxHistorySize
      omega

/-- Any run of actions keeps the total stacked snapshot count within
capacity. -/
theorem runActions_size (acts : List Action) :
    ∀ s, s.history.length + s.redoStack.length ≤ maxHistorySize →
      (runActions s acts).history.length + (runActions s acts).redoStack.length ≤
        maxHistorySize := by
  induction acts with
  | nil => intro s h; exact h
  | cons a rest ih => intro s h; exact ih (applyAction s a) (applyAction_size s a h)

/-- C5: the undo stack never exceeds 50 entries over any run of actions,
and after 51 effective mutating operations from the empty canvas — the
first one an add — the 51st snapshot push evicted the oldest entry, so
undoing 51 times restores the observable state that existed right after
the first operation, not the initial empty canvas (the 51st undo is a
no-op on an already empty stack). -/
theorem c5_history_bound (acts : List Action) (d : ComponentData) (ops : List EditOp)
    (hlen : ops.length = maxHistorySize)
    (heff : effectiveB (addComponent initialState d) ops = true) :
    (runActions initialState acts).history.length ≤ maxHistorySize ∧
      currentSnapshot (undoN 51 (runEdits initialState (EditOp.add d :: ops))) =
        currentSnapshot (addComponent initialState d) ∧
      currentSnapshot (undoN 51 (runEdits initialState (EditOp.add d :: ops))) ≠
        currentSnapshot initialState := by
  have hbound : (runActions initialState acts).history.length ≤ maxHistorySize := by
    have h2 := runActions_size acts initialState (by decide)
    omega
  obtain ⟨o2, rest, rfl⟩ : ∃ o2 rest, ops = o2 :: rest := by
    cases ops with
    | nil => exact absurd hlen (by decide)
    | cons a b => exact ⟨a, b, rfl⟩
  have heff1 : effectiveB initialState (EditOp.add d :: o2 :: rest) = true := by
    show (true && effectiveB (applyEdit initialState (EditOp.add d)) (o2 :: rest)) = true
    rw [Bool.true_and]
    exact heff
  have hrun := runEdits_history (EditOp.add d :: o2 :: rest) initialState heff1 (by decide)
  have hAlen :
      (snapTrace (addComponent initialState d) (o2 :: rest)).length = maxHistorySize := by
    rw [snapTrace_length]
    exact hlen
  have hfin : (runEdits initialState (EditOp.add d :: o2 :: rest)).history =
      snapTrace (addComponent initialState d) (o2 :: rest) := by
    rw [hrun]
    show ((snapTrace (addComponent initialState d) (o2 :: rest) ++
        [currentSnapshot initialState]) ++ ([] : List Snapshot)).take maxHistorySize = _
    rw [List.append_nil, List.take_append_eq_append_take, hAlen, Nat.sub_self, List.take_zero,
      List.append_nil, List.take_of_length_le (le_of_eq hAlen)]
  have hsv : savedSnapshot (addComponent initialState d) o2 =
      currentSnapshot (addComponent initialState d) :=
    savedSnapshot_of_short _ o2 (Nat.le_refl 1)
  have hfin2 : (runEdits initialState (EditOp.add d :: o2 :: rest)).history =
      snapTrace (applyEdit (addComponent initialState d) o2) rest ++
        [currentSnapshot (addComponent initialState d)] := by
    rw [hfin]
    show snapTrace (applyEdit (addComponent initialState d) o2) rest ++
      [savedSnapshot (addComponent initialState d) o2] = _
    rw [hsv]
  have hle : (snapTrace (applyEdit (addComponent initialState d) o2) rest).length + 1 ≤ 51 := by
    rw [snapTrace_length]
    have hlen2 : (o2 :: rest).length = maxHistorySize := hlen
    simp only [List.length_cons, maxHistorySize] at hlen2
    omega
  obtain ⟨hcur, _⟩ := undoN_restores_last
    (snapTrace (applyEdit (addComponent initialState d) o2) rest)
    (currentSnapshot (addComponent initialState d))
    (runEdits initialState (EditOp.add d :: o2 :: rest)) 51 hfin2 hle
  refine ⟨hbound, hcur, ?_⟩
  intro hEq
  have h2 : (currentSnapshot (addComponent initialState d)).canvasContent =
      (currentSnapshot initialState).canvasContent := by
    rw [← hcur, hEq]
  have h3 : (d :: ([] : List ComponentData)) = ([] : List ComponentData) := h2
  exact List.cons_ne_nil d [] h3

/-- Witness for C5: 51 concrete adds, then 51 undos land on the state
after the first add. -/
theorem c5_witness :
    currentSnapshot (undoN 51 (runEdits initialState
        (EditOp.add dA :: List.replicate 50 (EditOp.add dA)))) =
      currentSnapshot (addComponent initialState dA) :=
  (c5_history_bound [] dA (List.replicate 50 (EditOp.add dA)) (by decide) (by decide)).2.1

/-- Once the reduce holds a candidate it always returns one. -/
theorem dragReduce_some (y : ℚ) :
    ∀ (l : List Rect) (idx i : Nat) (o : ℚ), ∃ p, dragReduce y idx (some (i, o)) l = some p := by
  intro l
  induction l with
  | nil => intro idx i o; exact ⟨(i, o), rfl⟩
  | cons r rest ih =>
      intro idx i o
      have hb : ∃ j b, betterCandidate y (some (i, o)) idx r = some (j, b) := by
        show ∃ j b, (if dragOffset y r < 0 ∧ o < dragOffset y r then some (idx, dragOffset y r)
          else some (i, o)) = some (j, b)
        by_cases hc : dragOffset y r < 0 ∧ o < dragOffset y r
        · rw [if_pos hc]; exact ⟨idx, dragOffset y r, rfl⟩
        · rw [if_neg hc]; exact ⟨i, o, rfl⟩
      obtain ⟨j, b, hb2⟩ := hb
      obtain ⟨p, hp⟩ := ih (idx + 1) j b
      refine ⟨p, ?_⟩
      show dragReduce y (idx + 1) (betterCandidate y (some (i, o)) idx r) rest = some p
      rw [hb2]
      exact hp

/-- When no candidate offset is negative the reduce yields nothing. -/
theorem dragReduce_none_of (y : ℚ) :
    ∀ (l : List Rect) (idx : Nat), (∀ r ∈ l, 0 ≤ dragOffset y r) →
      dragReduce y idx none l = none := by
  intro l
  induction l with
  | nil => intro idx _; rfl
  | cons r rest ih =>
      intro idx h
      have h0 : ¬ dragOffset y r < 0 := not_lt.mpr (h r (List.mem_cons_self r rest))
      have hb : betterCandidate y none idx r = none := by
        show (if dragOffset y r < 0 then some (idx, dragOffset y r) else none) = none
        rw [if_neg h0]
      show dragReduce y (idx + 1) (betterCandidate y none idx r) rest = none
      rw [hb]
      exact ih (idx + 1) (fun r2 hr2 => h r2 (List.mem_cons_of_mem r hr2))

/-- When the reduce yields nothing, no candidate offset was negative. -/
theorem dragReduce_none_forall (y : ℚ) :
    ∀ (l : List Rect) (idx : Nat), dragReduce y idx none l = none →
      ∀ r ∈ l, 0 ≤ dragOffset y r := by
  intro l
  induction l with
  | nil => intro idx _ r hr; exact absurd hr (List.not_mem_nil r)
  | cons r0 rest ih =>
      intro idx h r hr
      by_cases h0 : dragOffset y r0 < 0
      · exfalso
        have hb : betterCandidate y none idx r0 = some (idx, dragOffset y r0) := by
          show (if dragOffset y r0 < 0 then some (idx, dragOffset y r0) else none) = _
          rw [if_pos h0]
        have h2 : dragReduce y (idx + 1) (some (idx, dragOffset y r0)) rest = none := by
          have h3 : dragReduce y (idx + 1) (betterCandidate y none idx r0) rest = none := h
          rwa [hb] at h3
        obtain ⟨p, hp⟩ := dragReduce_some y rest (idx + 1) idx (dragOffset y r0)
        rw [hp] at h2
        exact Option.noConfusion h2
      · have hb : betterCandidate y none idx r0 = none := by
          show (if dragOffset y r0 < 0 then some (idx, dragOffset y r0) else none) = none
          rw [if_neg h0]
        have h2 : dragReduce y (idx + 1) none rest = none := by
          have h3 : dragReduce y (idx + 1) (betterCandidate y none idx r0) rest = none := h
          rwa [hb] at h3
        rcases List.mem_cons.mp hr with heq | hmem
        · subst heq
          exact not_lt.mp h0
        · exact ih (idx + 1) h2 r hmem

/-- The reduce never lowers the offset of the held candidate. -/
theorem dragReduce_mono (y : ℚ) :
    ∀ (l : List Rect) (idx i : Nat) (o : ℚ) (i2 : Nat) (o2 : ℚ),
      dragReduce y idx (some (i, o)) l = some (i2, o2) → o ≤ o2 := by
  intro l
  induction l with
  | nil =>
      intro idx i o i2 o2 h
      have h2 : some (i, o) = some (i2, o2) := h
      simp only [Option.some.injEq, Prod.mk.injEq] at h2
      exact le_of_eq h2.2
  | cons r rest ih =>
      intro idx i o i2 o2 h
      have h3 : dragReduce y (idx + 1) (betterCandidate y (some (i, o)) idx r) rest =
          some (i2, o2) := h
      by_cases hc : dragOffset y r < 0 ∧ o < dragOffset y r
      · have hb : betterCandidate y (some (i, o)) idx r = some (idx, dragOffset y r) := by
          show (if dragOffset y r < 0 ∧ o < dragOffset y r then some (idx, dragOffset y r)
            else some (i, o)) = _
          rw [if_pos hc]
        rw [hb] at h3
        exact le_of_lt (lt_of_lt_of_le hc.2 (ih (idx + 1) idx (dragOffset y r) i2 o2 h3))
      · have hb : betterCandidate y (some (i, o)) idx r = some (i, o) := by
          show (if dragOffset y r < 0 ∧ o < dragOffset y r then some (idx, dragOffset y r)
            else some (i, o)) = _
          rw [if_neg hc]
        rw [hb] at h3
        exact ih (idx + 1) i o i2 o2 h3

/-- The offset returned by the reduce dominates every negative offset in
the scanned list. -/
theorem dragReduce_dom (y : ℚ) :
    ∀ (l : List Rect) (idx : Nat) (acc : Option (Nat × ℚ)) (i : Nat) (o : ℚ),
      dragReduce y idx acc l = some (i, o) →
      ∀ r ∈ l, dragOffset y r < 0 → dragOffset y r ≤ o := by
  intro l
  induction l with
  | nil => intro idx acc i o h r hr; exact absurd hr (List.not_mem_nil r)
  | cons r0 rest ih =>
      intro idx acc i o h r hr hneg
      have h3 : dragReduce y (idx + 1) (betterCandidate y acc idx r0) rest = some (i, o) := h
      rcases List.mem_cons.mp hr with heq | hmem
      · subst heq
        cases ha : acc with
        | none =>
            have hb : betterCandidate y none idx r = some (idx, dragOffset y r) := by
              show (if dragOffset y r < 0 then some (idx, dragOffset y r) else none) = _
              rw [if_pos hneg]
            rw [ha, hb] at h3
            exact dragReduce_mono y rest (idx + 1) idx (dragOffset y r) i o h3
        | some p =>
            obtain ⟨j, b⟩ := p
            by_cases hc : dragOffset y r < 0 ∧ b < dragOffset y r
            · have hb : betterCandidate y (some (j, b)) idx r = some (idx, dragOffset y r) := by
                show (if dragOffset y r < 0 ∧ b < dragOffset y r then some (idx, dragOffset y r)
                  else some (j, b)) = _
                rw [if_pos hc]
              rw [ha, hb] at h3
              exact dragReduce_mono y rest (idx + 1) idx (dragOffset y r) i o h3
            · have hob : dragOffset y r ≤ b := by
                rcases not_and_or.mp hc with h4 | h4
                · exact absurd hneg h4
                · exact not_lt.mp h4
              have hb : betterCandidate y (some (j, b)) idx r = some (j, b) := by
                show (if dragOffset y r < 0 ∧ b < dragOffset y r then some (idx, dragOffset y r)
                  else some (j, b)) = _
                rw [if_neg hc]
              rw [ha, hb] at h3
              exact le_trans hob (dragReduce_mono y rest (idx + 1) j b i o h3)
      · exact ih (idx + 1) (betterCandidate y acc idx r0) i o h3 r hmem hneg

/-- A candidate returned by the reduce is the starting accumulator or an
actual scanned element with negative offset, at its true position. -/
theorem dragReduce_mem (y : ℚ) :
    ∀ (l : List Rect) (idx : Nat) (acc : Option (Nat × ℚ)) (i : Nat) (o : ℚ),
      dragReduce y idx acc l = some (i, o) →
      acc = some (i, o) ∨
        ∃ k, ∃ hk : k < l.length, i = idx + k ∧ o = dragOffset y (l.get ⟨k, hk⟩) ∧ o < 0 := by
  intro l
  induction l with
  | nil => intro idx acc i o h; exact Or.inl h
  | cons r rest ih =>
      intro idx acc i o h
      have h3 : dragReduce y (idx + 1) (betterCandidate y acc idx r) rest = some (i, o) := h
      rcases ih (idx + 1) (betterCandidate y acc idx r) i o h3 with hacc | ⟨k, hk, hik, hok, hneg⟩
      · cases ha : acc with
        | none =>
            rw [ha] at hacc
            by_cases h0 : dragOffset y r < 0
            · have hb : betterCandidate y none idx r = some (idx, dragOffset y r) := by
                show (if dragOffset y r < 0 then some (idx, dragOffset y r) else none) = _
                rw [if_pos h0]
              rw [hb] at hacc
              simp only [Option.some.injEq, Prod.mk.injEq] at hacc
              obtain ⟨h5, h6⟩ := hacc
              refine Or.inr ⟨0, Nat.succ_pos rest.length, by omega, h6.symm, ?_⟩
              rw [← h6]
              exact h0
            · have hb : betterCandidate y none idx r = none := by
                show (if dragOffset y r < 0 then some (idx, dragOffset y r) else none) = none
                rw [if_neg h0]
              rw [hb] at hacc
              exact Option.noConfusion hacc
        | some p =>
            obtain ⟨j, b⟩ := p
            rw [ha] at hacc
            by_cases hc : dragOffset y r < 0 ∧ b < dragOffset y r
            · have hb : betterCandidate y (some (j, b)) idx r = some (idx, dragOffset y r) := by
                show (if dragOffset y r < 0 ∧ b < dragOffset y r then some (idx, dragOffset y r)
                  else some (j, b)) = _
                rw [if_pos hc]
              rw [hb] at hacc
              simp only [Option.some.injEq, Prod.mk.injEq] at hacc
              obtain ⟨h5, h6⟩ := hacc
              refine Or.inr ⟨0, Nat.succ_pos rest.length, by omega, h6.symm, ?_⟩
              rw [← h6]
              exact hc.1
            · have hb : betterCandidate y (some (j, b)) idx r = some (j, b) := by
                show (if dragOffset y r < 0 ∧ b < dragOffset y r then some (idx, dragOffset y r)
                  else some (j, b)) = _
                rw [if_neg hc]
              rw [hb] at hacc
              exact Or.inl hacc
      · refine Or.inr ⟨k + 1, ?_, ?_, ?_, hneg⟩
        · simp only [List.length_cons]
          omega
        · omega
        · exact hok

/-- C6: getDragAfterElement returns the position of a wrapper whose
midpoint lies strictly below the pointer (negative offset) with the
largest such offset — the negative offset closest to zero — and returns
none exactly when no midpoint lies below the pointer; the dragover
handler then inserts the dragged wrapper just before the returned one, or
appends it at the end when there is none. -/
theorem c6_drag_after_element (y : ℚ) (rects : List Rect) (dragged : ComponentData)
    (others : List ComponentData) :
    (∀ i, getDragAfterElement y rects = some i →
        ∃ hi : i < rects.length,
          dragOffset y (rects.get ⟨i, hi⟩) < 0 ∧
            ∀ j, ∀ hj : j < rects.length, dragOffset y (rects.get ⟨j, hj⟩) < 0 →
              dragOffset y (rects.get ⟨j, hj⟩) ≤ dragOffset y (rects.get ⟨i, hi⟩)) ∧
      (getDragAfterElement y rects = none ↔
        ∀ j, ∀ hj : j < rects.length, 0 ≤ dragOffset y (rects.get ⟨j, hj⟩)) ∧
      (getDragAfterElement y rects = none →
        dragOverPlace dragged others y rects = others ++ [dragged]) ∧
      ∀ i, getDragAfterElement y rects = some i →
        dragOverPlace dragged others y rects = others.take i ++ dragged :: others.drop i := by
  refine ⟨?_, ⟨?_, ?_⟩, ?_, ?_⟩
  · intro i hi
    obtain ⟨⟨i2, o⟩, hred, hfst⟩ := Option.map_eq_some'.mp hi
    have hi2 : i2 = i := hfst
    subst hi2
    rcases dragReduce_mem y rects 0 none i2 o hred with hacc | ⟨k, hk, hik, hok, hneg⟩
    · exact Option.noConfusion hacc
    · have hik2 : i2 = k := by omega
      subst hik2
      refine ⟨hk, ?_, ?_⟩
      · rw [← hok]
        exact hneg
      · intro j hj hjneg
        rw [← hok]
        exact dragReduce_dom y rects 0 none i2 o hred (rects.get ⟨j, hj⟩)
          (List.get_mem rects j hj) hjneg
  · intro h j hj
    have h2 : dragReduce y 0 none rects = none := Option.map_eq_none'.mp h
    exact dragReduce_none_forall y rects 0 h2 (rects.get ⟨j, hj⟩) (List.get_mem rects j hj)
  · intro h
    have h2 : dragReduce y 0 none rects = none := by
      apply dragReduce_none_of
      intro r hr
      obtain ⟨⟨j, hj⟩, hget⟩ := List.mem_iff_get.mp hr
      rw [← hget]
      exact h j hj
    show (dragReduce y 0 none rects).map Prod.fst = none
    rw [h2]
    rfl
  · intro h
    unfold dragOverPlace
    rw [h]
  · intro i h
    unfold dragOverPlace
    rw [h]

/-- Witness for C6: with a single box whose midpoint is not below the
pointer, no insertion target is returned. -/
theorem c6_witness :
    getDragAfterElement 0 [{ top := 0, height := 0 }] = none :=
  (c6_drag_after_element 0 [{ top := 0, height := 0 }] dA []).2.1.mpr (by
    intro j hj
    have hj0 : j = 0 := by
      simp only [List.length_cons, List.length_nil] at hj
      omega
    subst hj0
    show (0 : ℚ) ≤ dragOffset 0 { top := 0, height := 0 }
    norm_num [dragOffset])

end Studio
